import Mathlib

/-!
# Voice-enabled search page (`src/pages/index.js`)

A shallow embedding of the three pieces of logic of the page component:

* `interpretQuery` (source lines 96-126): keyword classification of the
  utterance and rewriting into a search query;
* `performSearch` (source lines 128-161): the five templated result records
  (the 800 ms timer is abstracted away);
* the `onresult` handler of the speech recogniser (source lines 23-41).

JavaScript strings are sequences of UTF-16 code units and are modelled as
lists of natural numbers.  The string builtins the source calls
(`includes`, `trim`, `replace` with the three regular expressions that occur,
template literals) are modelled on code units.  `toLowerCase` depends on the
Unicode tables of the engine; it is a field of `Engine`, constrained by the
facts about it that the proofs use.
-/

namespace VoiceSearch

/-! ## Strings and the builtins used by the source -/

/-- A JavaScript string, as the list of its UTF-16 code units. -/
abbrev JSString := List Nat

/-- The code units of a string literal of the source (every literal that is
converted this way is ASCII, one code unit per character). -/
def lit (s : String) : JSString := s.toList.map Char.toNat

/-- Lower-case mapping of an ASCII code unit (`A`-`Z` to `a`-`z`), identity elsewhere. -/
def asciiLower (c : Nat) : Nat := if 65 ≤ c ∧ c ≤ 90 then c + 32 else c

/-- The `Canonicalize` operation of a regular expression with the `i` flag and
without the `u` flag, on the code units where it matters for ASCII patterns:
`a`-`z` go to `A`-`Z`.  A code unit `≥ 128` is never canonicalized to an ASCII
one by the engine, so for the all-ASCII patterns of the source leaving such a
unit unchanged gives exactly the engine's comparison result. -/
def canonicalize (c : Nat) : Nat := if 97 ≤ c ∧ c ≤ 122 then c - 32 else c

/-- Code units matched by `\s` and removed by `trim`: the WhiteSpace and
LineTerminator code points of ECMAScript (TAB, LF, VT, FF, CR, SP, NBSP,
U+1680, U+2000-U+200A, U+2028, U+2029, U+202F, U+205F, U+3000, U+FEFF). -/
def isWhiteSpace (c : Nat) : Bool :=
  c == 9 || c == 10 || c == 11 || c == 12 || c == 13 || c == 32 || c == 160 ||
  c == 5760 || (8192 ≤ c && c ≤ 8202) || c == 8232 || c == 8233 || c == 8239 ||
  c == 8287 || c == 12288 || c == 65279

/-- Does `kw` occur in `s` starting at its first code unit (exact comparison)? -/
def startsWith : JSString → JSString → Bool
  | _, [] => true
  | [], _ :: _ => false
  | c :: cs, k :: ks => c == k && startsWith cs ks

/-- The builtin `s.includes(kw)`: `kw` occurs somewhere in `s`. -/
def includes : JSString → JSString → Bool
  | [], kw => startsWith [] kw
  | c :: cs, kw => startsWith (c :: cs) kw || includes cs kw

/-- The builtin `s.trim()`: white space removed from both ends. -/
def trim (s : JSString) : JSString :=
  ((s.dropWhile isWhiteSpace).reverse.dropWhile isWhiteSpace).reverse

/-- Does the literal pattern `pat` match at the start of `s`, ignoring case
(one alternative of a regular expression with the `i` flag)? -/
def matchesAt : JSString → JSString → Bool
  | [], _ => true
  | _ :: _, [] => false
  | p :: ps, c :: cs => canonicalize p == canonicalize c && matchesAt ps cs

/-- The alternation `alt₁|alt₂|...` tried at the start of `s`: the length of the
first alternative (in the order written) that matches, if any. -/
def matchLength : List JSString → JSString → Option Nat
  | [], _ => none
  | alt :: alts, s => if matchesAt alt s then some alt.length else matchLength alts s

/-- The scan of `text.replace(/alt₁|alt₂|.../gi, '')`.  `skip` is the number of
code units still to be dropped from the match in progress.  Outside a match
the alternation is tried at the current position: on a match of `n + 1` code
units these are dropped and the scan resumes right after the match; otherwise
the code unit is kept and the scan moves on by one. -/
def removeFrom (alts : List JSString) : Nat → JSString → JSString
  | _, [] => []
  | skip + 1, _ :: cs => removeFrom alts skip cs
  | 0, c :: cs =>
    match matchLength alts (c :: cs) with
    | some (n + 1) => removeFrom alts n cs
    | _ => c :: removeFrom alts 0 cs

/-- The call `text.replace(/alt₁|alt₂|.../gi, '')`. -/
def removeAll (alts : List JSString) (text : JSString) : JSString :=
  removeFrom alts 0 text

/-- The scan of `q.replace(/\s+/g, '-')`; `inRun` tells that the previous code
unit was white space of a run whose hyphen is already written. -/
def hyphenateFrom : Bool → JSString → JSString
  | _, [] => []
  | inRun, c :: cs =>
    if isWhiteSpace c then
      if inRun then hyphenateFrom true cs else 45 :: hyphenateFrom true cs
    else c :: hyphenateFrom false cs

/-- The call `q.replace(/\s+/g, '-')`. -/
def hyphenate (q : JSString) : JSString := hyphenateFrom false q

/-- The engine's `String.prototype.toLowerCase`, with the facts about it that
are used.  The Unicode case tables are not part of the repository; what is
recorded here holds of the ECMAScript operation: ASCII code units are mapped
in place to their ASCII lower case whatever follows them, a hyphen cuts the
string into independently converted parts (it is neither cased nor
case-ignorable, so the one context rule, final sigma, never looks across it),
and no lower-case mapping produces white space. -/
structure Engine where
  /-- The builtin itself. -/
  toLowerCase : JSString → JSString
  /-- An all-ASCII string is lower-cased code unit by code unit. -/
  lower_ascii : ∀ a : JSString, (∀ c ∈ a, c < 128) → toLowerCase a = a.map asciiLower
  /-- An all-ASCII beginning is lower-cased in place. -/
  lower_ascii_head : ∀ a b : JSString, (∀ c ∈ a, c < 128) →
    ∃ t, toLowerCase (a ++ b) = a.map asciiLower ++ t
  /-- Lower-casing works separately on both sides of a hyphen. -/
  lower_hyphen : ∀ u v : JSString,
    toLowerCase (u ++ 45 :: v) = toLowerCase u ++ 45 :: toLowerCase v
  /-- Lower-casing a string without white space gives no white space. -/
  lower_no_ws : ∀ s : JSString, (∀ c ∈ s, isWhiteSpace c = false) →
    ∀ c ∈ toLowerCase s, isWhiteSpace c = false

/-! ## `interpretQuery` -/

/-- The object returned by `interpretQuery`. -/
structure Interpreted where
  interpretation : JSString
  searchQuery : JSString
  deriving DecidableEq, Repr

/-- The removal list of the regular expression of the first branch. -/
def searchPhrases : List JSString :=
  [lit "find", lit "search for", lit "look for", lit "please", lit "can you"]

/-- The removal list of the regular expression of the weather branch. -/
def weatherPhrases : List JSString := [lit "weather", lit "in", lit "for"]

/-- The removal list of the regular expression of the news branch. -/
def newsPhrases : List JSString := [lit "news", lit "about"]

/-- The function `interpretQuery` of the source: the pair of the label
(`interpretation` before the final concatenation) and of `searchQuery`,
chosen by the chain of `if` / `else if` on `lowerText`. -/
def interpretQuery (E : Engine) (text : JSString) : Interpreted :=
  let lowerText := E.toLowerCase text
  let r : JSString × JSString :=
    if includes lowerText (lit "find") || includes lowerText (lit "search for")
        || includes lowerText (lit "look for") then
      (lit "Searching for: ", trim (removeAll searchPhrases text))
    else if includes lowerText (lit "what is") || includes lowerText (lit "who is")
        || includes lowerText (lit "where is") then
      (lit "Information query: ", text)
    else if includes lowerText (lit "how to") then
      (lit "Tutorial search: ", text)
    else if includes lowerText (lit "weather") then
      (lit "Weather information for: ", trim (removeAll weatherPhrases text))
    else if includes lowerText (lit "news") then
      (lit "Latest news about: ", trim (removeAll newsPhrases text))
    else
      (lit "General search: ", text)
  { interpretation := r.1 ++ r.2, searchQuery := r.2 }

/-! ## `performSearch` -/

/-- One element of `mockResults`. -/
structure SearchResult where
  title : JSString
  url : JSString
  snippet : JSString
  deriving DecidableEq, Repr

/-- The expression `query.replace(/\s+/g, '-').toLowerCase()` of the URLs. -/
def slug (E : Engine) (query : JSString) : JSString := E.toLowerCase (hyphenate query)

/-- The function `performSearch` of the source, without the timer: the array
`mockResults` built from the template literals. -/
def performSearch (E : Engine) (query : JSString) : List SearchResult :=
  [ { title := query ++ lit " - Complete Guide",
      url := lit "https://example.com/" ++ slug E query,
      snippet := lit "Everything you need to know about " ++ query ++
        lit ". Comprehensive information and latest updates..." },
    { title := lit "Top 10 " ++ query ++ lit " Resources",
      url := lit "https://example.com/top-" ++ slug E query,
      snippet := lit "Discover the best resources and information about " ++ query ++
        lit ". Expert recommendations and guides..." },
    { title := query ++ lit " - Latest News and Updates",
      url := lit "https://news.example.com/" ++ slug E query,
      snippet := lit "Stay updated with the latest developments regarding " ++ query ++
        lit ". Breaking news and analysis..." },
    { title := lit "Understanding " ++ query,
      url := lit "https://learn.example.com/" ++ slug E query,
      snippet := lit "Learn everything about " ++ query ++
        lit " with our comprehensive tutorials and expert insights..." },
    { title := query ++ lit " Community Forum",
      url := lit "https://forum.example.com/" ++ slug E query,
      snippet := lit "Join the discussion about " ++ query ++
        lit ". Connect with experts and enthusiasts from around the world..." } ]

/-- The fixed beginnings of the five URLs, in the order of `mockResults`. -/
def urlHeads : List JSString :=
  [lit "https://example.com/", lit "https://example.com/top-", lit "https://news.example.com/",
   lit "https://learn.example.com/", lit "https://forum.example.com/"]

/-- The slug in the words of the spec: every space replaced by a hyphen, then
lower-cased.  (The source computes `slug`.) -/
def spaceSlug (E : Engine) (query : JSString) : JSString :=
  E.toLowerCase (query.map fun c => if c = 32 then 45 else c)

/-! ## The recognition handler -/

/-- One entry `event.results[i]`: the transcript of its first alternative and
its `isFinal` flag. -/
structure SpeechResult where
  transcript : JSString
  isFinal : Bool
  deriving DecidableEq, Repr

/-- The recognition event: `resultIndex` and the list `results`. -/
structure ResultEvent where
  resultIndex : Nat
  results : List SpeechResult
  deriving DecidableEq, Repr

/-- One turn of the `for` loop of `onresult` on the pair
`(finalTranscript, interimTranscript)`. -/
def accumulate (acc : JSString × JSString) (r : SpeechResult) : JSString × JSString :=
  if r.isFinal then (acc.1 ++ (r.transcript ++ lit " "), acc.2)
  else (acc.1, acc.2 ++ r.transcript)

/-- The pair `(finalTranscript, interimTranscript)` after the loop, which runs
over the entries from `resultIndex` on. -/
def transcripts (event : ResultEvent) : JSString × JSString :=
  (event.results.drop event.resultIndex).foldl accumulate ([], [])

/-- What the `onresult` handler does: the value given to `setTranscript` and,
when `processVoiceInput` is called, the text it is called with. -/
structure HandlerEffect where
  shown : JSString
  processed : Option JSString
  deriving DecidableEq, Repr

/-- The handler `recognitionRef.current.onresult` of the source. -/
def onresult (event : ResultEvent) : HandlerEffect :=
  let finalTranscript := (transcripts event).1
  let interimTranscript := (transcripts event).2
  { shown := if finalTranscript ≠ [] then finalTranscript else interimTranscript,
    processed := if finalTranscript ≠ [] then some (trim finalTranscript) else none }

/-- The concatenation of the transcripts of the final entries from
`resultIndex` on, each followed by one space. -/
def finalText (event : ResultEvent) : JSString :=
  ((event.results.drop event.resultIndex).filter fun r => r.isFinal).flatMap
    fun r => r.transcript ++ lit " "

/-- An event with one interim entry before `resultIndex` and two final entries
from it on. -/
def sampleEvent : ResultEvent :=
  { resultIndex := 1,
    results := [{ transcript := lit "fi", isFinal := false },
                { transcript := lit "find cats", isFinal := true },
                { transcript := lit "now", isFinal := true }] }

/-- The function `processVoiceInput` of the source, as the two values it
stores: the interpretation and the results of the search for the rewritten
query. -/
def processVoiceInput (E : Engine) (text : JSString) : JSString × List SearchResult :=
  let interpreted := interpretQuery E text
  (interpreted.interpretation, performSearch E interpreted.searchQuery)

/-! ## A concrete engine -/

/-- An engine whose `toLowerCase` lower-cases ASCII letters and leaves every
other code unit unchanged (the behaviour of the builtin on ASCII text). -/
def asciiEngine : Engine where
  toLowerCase s := s.map asciiLower
  lower_ascii _ _ := rfl
  lower_ascii_head a b _ := ⟨b.map asciiLower, by simp⟩
  lower_hyphen u v := by simp [asciiLower]
  lower_no_ws s h c hc := by
    obtain ⟨d, hd, rfl⟩ := List.mem_map.1 hc
    have hd2 := h d hd
    unfold asciiLower
    split
    · rename_i hr
      simp only [isWhiteSpace, Bool.or_eq_false_iff, beq_eq_false_iff_ne, Bool.and_eq_false_iff,
        decide_eq_false_iff_not] at hd2 ⊢
      omega
    · exact hd2

/-! ## The rules, as the spec numbers them -/

/-- Keyword test of rule 1 on the lower-cased text. -/
def rule1 (l : JSString) : Bool :=
  includes l (lit "find") || includes l (lit "search for") || includes l (lit "look for")

/-- Keyword test of rule 2 on the lower-cased text. -/
def rule2 (l : JSString) : Bool :=
  includes l (lit "what is") || includes l (lit "who is") || includes l (lit "where is")

/-- Keyword test of rule 3 on the lower-cased text. -/
def rule3 (l : JSString) : Bool := includes l (lit "how to")

/-- Keyword test of rule 4 on the lower-cased text. -/
def rule4 (l : JSString) : Bool := includes l (lit "weather")

/-- Keyword test of rule 5 on the lower-cased text. -/
def rule5 (l : JSString) : Bool := includes l (lit "news")

/-- The number of the rule that fires on the lower-cased text `l`: the first
one, top to bottom, whose keyword test succeeds; 6 is the fallback. -/
def firstRule (l : JSString) : Nat :=
  if rule1 l then 1 else if rule2 l then 2 else if rule3 l then 3
  else if rule4 l then 4 else if rule5 l then 5 else 6

/-- Does `pat` occur in `s` ignoring case (a match of the pattern at some position)? -/
def occursCI : JSString → JSString → Bool
  | [], pat => matchesAt pat []
  | c :: cs, pat => matchesAt pat (c :: cs) || occursCI cs pat

/-- The test of rule `k` (1 to 5) on the lower-cased text. -/
def ruleHolds (k : Nat) (l : JSString) : Bool :=
  match k with
  | 1 => rule1 l
  | 2 => rule2 l
  | 3 => rule3 l
  | 4 => rule4 l
  | 5 => rule5 l
  | _ => false

/-- The label of rule `k`; 6 (and any other number) is the general fallback. -/
def ruleLabel (k : Nat) : JSString :=
  match k with
  | 1 => lit "Searching for: "
  | 2 => lit "Information query: "
  | 3 => lit "Tutorial search: "
  | 4 => lit "Weather information for: "
  | 5 => lit "Latest news about: "
  | _ => lit "General search: "

/-- The removal list of rule `k`, for the three stripping rules. -/
def rulePhrases (k : Nat) : Option (List JSString) :=
  match k with
  | 1 => some searchPhrases
  | 4 => some weatherPhrases
  | 5 => some newsPhrases
  | _ => none

/-- One left-to-right pass that deletes matches, stated as a relation:
`Stripped alts text out` holds when `text` is cut into kept code units and
deleted stretches such that
* at a kept code unit no alternative matches (ignoring case) the text that
  starts there;
* a deleted stretch `m` is non-empty and equals, up to case, the first
  alternative of the list that matches at that position;
* after a deleted stretch the pass goes on behind it, so the text brought
  together by a deletion is not looked at again;
and `out` is the sequence of the kept code units. -/
inductive Stripped (alts : List JSString) : JSString → JSString → Prop
  | done : Stripped alts [] []
  | keep (c : Nat) (cs out : JSString) :
      (∀ alt ∈ alts, matchesAt alt (c :: cs) = false) →
      Stripped alts cs out → Stripped alts (c :: cs) (c :: out)
  | delete (before : List JSString) (alt : JSString) (after : List JSString)
      (m rest out : JSString) :
      alts = before ++ alt :: after →
      (∀ a ∈ before, matchesAt a (m ++ rest) = false) →
      m ≠ [] → m.map canonicalize = alt.map canonicalize →
      Stripped alts rest out → Stripped alts (m ++ rest) out

/-- The string does not begin with white space. -/
def noLeadingSpace (s : JSString) : Prop := ∀ c, s.head? = some c → isWhiteSpace c = false

/-- The string does not end with white space. -/
def noTrailingSpace (s : JSString) : Prop := ∀ c, s.getLast? = some c → isWhiteSpace c = false

instance (s : JSString) : Decidable (noLeadingSpace s) :=
  decidable_of_iff (∀ c ∈ s.head?, isWhiteSpace c = false) (by simp [noLeadingSpace])

instance (s : JSString) : Decidable (noTrailingSpace s) :=
  decidable_of_iff (∀ c ∈ s.getLast?, isWhiteSpace c = false) (by simp [noTrailingSpace])

/-- The query that rule `k` derives from the text. -/
def rewritten (k : Nat) (text : JSString) : JSString :=
  match rulePhrases k with
  | some phrases => trim (removeAll phrases text)
  | none => text

/-! ## Facts about the builtins -/

theorem startsWith_iff (s kw : JSString) : startsWith s kw = true ↔ ∃ b, s = kw ++ b := by
  induction s generalizing kw with
  | nil => cases kw <;> simp [startsWith]
  | cons c cs ih =>
    cases kw with
    | nil => simp [startsWith]
    | cons k ks =>
      simp only [startsWith, Bool.and_eq_true, beq_iff_eq, ih, List.cons_append, List.cons.injEq]
      constructor
      · rintro ⟨rfl, b, rfl⟩; exact ⟨b, rfl, rfl⟩
      · rintro ⟨b, rfl, rfl⟩; exact ⟨rfl, b, rfl⟩

theorem includes_iff (s kw : JSString) :
    includes s kw = true ↔ ∃ a b, s = a ++ kw ++ b := by
  induction s with
  | nil =>
    simp only [includes, startsWith_iff]
    constructor
    · rintro ⟨b, h⟩; exact ⟨[], b, by simpa using h⟩
    · rintro ⟨a, b, h⟩
      have h1 : a ++ kw ++ b = [] := h.symm
      simp only [List.append_eq_nil] at h1
      exact ⟨[], by simp [h1.1.2]⟩
  | cons c cs ih =>
    simp only [includes, Bool.or_eq_true, startsWith_iff, ih]
    constructor
    · rintro (⟨b, h⟩ | ⟨a, b, h⟩)
      · exact ⟨[], b, by simpa using h⟩
      · exact ⟨c :: a, b, by simp [h]⟩
    · rintro ⟨a, b, h⟩
      cases a with
      | nil => exact Or.inl ⟨b, by simpa using h⟩
      | cons x xs =>
        simp only [List.cons_append, List.cons.injEq] at h
        exact Or.inr ⟨xs, b, by simpa using h.2⟩

theorem includes_head (kw t : JSString) : includes (kw ++ t) kw = true :=
  (includes_iff _ _).2 ⟨[], t, by simp⟩

theorem matchesAt_iff (pat s : JSString) :
    matchesAt pat s = true ↔
      ∃ m b, s = m ++ b ∧ m.map canonicalize = pat.map canonicalize := by
  induction pat generalizing s with
  | nil => simp [matchesAt]
  | cons p ps ih =>
    cases s with
    | nil => simp [matchesAt]
    | cons c cs =>
      simp only [matchesAt, Bool.and_eq_true, beq_iff_eq, ih, List.map_cons]
      constructor
      · rintro ⟨h, m, b, rfl, hm⟩
        exact ⟨c :: m, b, rfl, by simp [hm, h]⟩
      · rintro ⟨m, b, h, hm⟩
        cases m with
        | nil => simp at hm
        | cons x xs =>
          simp only [List.cons_append, List.cons.injEq, List.map_cons] at h hm
          obtain ⟨rfl, rfl⟩ := h
          exact ⟨hm.1.symm, xs, b, rfl, hm.2⟩

theorem occursCI_iff (s pat : JSString) :
    occursCI s pat = true ↔
      ∃ a m b, s = a ++ m ++ b ∧ m.map canonicalize = pat.map canonicalize := by
  induction s with
  | nil =>
    simp only [occursCI, matchesAt_iff]
    constructor
    · rintro ⟨m, b, h, hm⟩; exact ⟨[], m, b, by simpa using h, hm⟩
    · rintro ⟨a, m, b, h, hm⟩
      have h1 : a ++ m ++ b = [] := h.symm
      simp only [List.append_eq_nil] at h1
      exact ⟨m, b, by simp [h1.1.2, h1.2], hm⟩
  | cons c cs ih =>
    simp only [occursCI, Bool.or_eq_true, matchesAt_iff, ih]
    constructor
    · rintro (⟨m, b, h, hm⟩ | ⟨a, m, b, h, hm⟩)
      · exact ⟨[], m, b, by simpa using h, hm⟩
      · exact ⟨c :: a, m, b, by simp [h], hm⟩
    · rintro ⟨a, m, b, h, hm⟩
      cases a with
      | nil => exact Or.inl ⟨m, b, by simpa using h, hm⟩
      | cons x xs =>
        simp only [List.cons_append, List.cons.injEq] at h
        exact Or.inr ⟨xs, m, b, by simpa using h.2, hm⟩

theorem trim_eq_nil_iff (s : JSString) :
    trim s = [] ↔ ∀ c ∈ s, isWhiteSpace c = true := by
  have key : trim s = List.rdropWhile isWhiteSpace (s.dropWhile isWhiteSpace) := rfl
  rw [key, List.rdropWhile_eq_nil_iff]
  constructor
  · intro h
    rw [← List.dropWhile_eq_nil_iff]
    by_contra hne
    obtain ⟨x, xs, hx⟩ := List.exists_cons_of_ne_nil hne
    have h1 := List.head?_dropWhile_not isWhiteSpace s
    rw [hx] at h1 h
    have h2 := h x (List.mem_cons_self _ _)
    simp [h2] at h1
  · intro h x hx
    exact h x ((List.dropWhile_sublist _).subset hx)

theorem trim_of_clean (s : JSString) (h1 : noLeadingSpace s) (h2 : noTrailingSpace s) :
    trim s = s := by
  have key : trim s = List.rdropWhile isWhiteSpace (s.dropWhile isWhiteSpace) := rfl
  have hd : s.dropWhile isWhiteSpace = s := by
    cases s with
    | nil => rfl
    | cons c cs =>
      have := h1 c rfl
      simp [List.dropWhile_cons, this]
  rw [key, hd, List.rdropWhile_eq_self_iff]
  intro hl
  have := h2 _ (List.getLast?_eq_getLast s hl)
  simp [this]

theorem trim_cons_space (c : Nat) (s : JSString) (h : isWhiteSpace c = true) :
    trim (c :: s) = trim s := by
  simp [trim, List.dropWhile_cons, h]

theorem matchLength_eq_none (alts : List JSString) (s : JSString)
    (h : ∀ alt ∈ alts, matchesAt alt s = false) : matchLength alts s = none := by
  induction alts with
  | nil => rfl
  | cons a as ih =>
    have ha := h a (List.mem_cons_self _ _)
    simp only [matchLength, ha, Bool.false_eq_true, if_false]
    exact ih fun alt halt => h alt (List.mem_cons_of_mem _ halt)

theorem matchLength_eq_none_iff (alts : List JSString) (s : JSString) :
    matchLength alts s = none ↔ ∀ alt ∈ alts, matchesAt alt s = false := by
  refine ⟨?_, matchLength_eq_none alts s⟩
  induction alts with
  | nil => intro _ alt halt; cases halt
  | cons a as ih =>
    intro h alt halt
    simp only [matchLength] at h
    split at h
    · cases h
    · rename_i ha
      rcases List.mem_cons.1 halt with rfl | hmem
      · simpa using ha
      · exact ih h alt hmem

theorem removeFrom_skip (alts : List JSString) (m rest : JSString) :
    removeFrom alts m.length (m ++ rest) = removeFrom alts 0 rest := by
  induction m with
  | nil => rfl
  | cons c cs ih => simpa [removeFrom] using ih

theorem removeFrom_keep (alts : List JSString) (c : Nat) (cs : JSString)
    (h : matchLength alts (c :: cs) = none) :
    removeFrom alts 0 (c :: cs) = c :: removeFrom alts 0 cs := by
  simp [removeFrom, h]

theorem removeFrom_match (alts : List JSString) (m rest : JSString) (hm : m ≠ [])
    (h : matchLength alts (m ++ rest) = some m.length) :
    removeFrom alts 0 (m ++ rest) = removeFrom alts 0 rest := by
  cases m with
  | nil => exact absurd rfl hm
  | cons c cs =>
    simp only [List.cons_append, List.length_cons] at h ⊢
    simp only [removeFrom, h]
    exact removeFrom_skip alts cs rest

theorem occursCI_tail (c : Nat) (cs pat : JSString) (h : occursCI (c :: cs) pat = false) :
    matchesAt pat (c :: cs) = false ∧ occursCI cs pat = false := by
  simpa [occursCI] using h

theorem removeFrom_clean (alts : List JSString) (s : JSString)
    (h : ∀ alt ∈ alts, occursCI s alt = false) : removeFrom alts 0 s = s := by
  induction s with
  | nil => rfl
  | cons c cs ih =>
    rw [removeFrom_keep alts c cs
      (matchLength_eq_none alts _ fun alt halt => (occursCI_tail c cs alt (h alt halt)).1)]
    rw [ih fun alt halt => (occursCI_tail c cs alt (h alt halt)).2]

/-! ## The literals of the source, code unit by code unit -/

theorem lit_find : lit "find" = [102, 105, 110, 100] := by decide
theorem lit_search_for : lit "search for" = [115, 101, 97, 114, 99, 104, 32, 102, 111, 114] := by decide
theorem lit_look_for : lit "look for" = [108, 111, 111, 107, 32, 102, 111, 114] := by decide
theorem lit_please : lit "please" = [112, 108, 101, 97, 115, 101] := by decide
theorem lit_can_you : lit "can you" = [99, 97, 110, 32, 121, 111, 117] := by decide
theorem lit_weather : lit "weather" = [119, 101, 97, 116, 104, 101, 114] := by decide
theorem lit_in : lit "in" = [105, 110] := by decide
theorem lit_for : lit "for" = [102, 111, 114] := by decide
theorem lit_news : lit "news" = [110, 101, 119, 115] := by decide
theorem lit_about : lit "about" = [97, 98, 111, 117, 116] := by decide
theorem lit_space : lit " " = [32] := by decide

/-! ## Case folding -/

theorem canonicalize_le (c : Nat) : canonicalize c ≤ c := by
  unfold canonicalize; split <;> omega

theorem ascii_of_canonicalize (c : Nat) (h : canonicalize c < 128) : c < 128 := by
  unfold canonicalize at h; split at h <;> omega

theorem asciiLower_canonicalize (c : Nat) : asciiLower (canonicalize c) = asciiLower c := by
  unfold canonicalize asciiLower
  split_ifs <;> omega

theorem ascii_of_canon_eq (p kw : JSString)
    (h : p.map canonicalize = kw.map canonicalize) (hk : ∀ c ∈ kw, c < 128) :
    ∀ c ∈ p, c < 128 := by
  intro c hc
  have h1 : canonicalize c ∈ kw.map canonicalize := h ▸ List.mem_map_of_mem _ hc
  obtain ⟨k, hk1, hk2⟩ := List.mem_map.1 h1
  apply ascii_of_canonicalize
  rw [← hk2]
  exact lt_of_le_of_lt (canonicalize_le k) (hk k hk1)

theorem lower_of_canon_eq (p kw : JSString)
    (h : p.map canonicalize = kw.map canonicalize) :
    p.map asciiLower = kw.map asciiLower := by
  have e : ∀ l : JSString, (l.map canonicalize).map asciiLower = l.map asciiLower := by
    intro l; simp [List.map_map, Function.comp_def, asciiLower_canonicalize]
  rw [← e p, h, e kw]

/-- A keyword that starts the text up to letter case (and is itself a lower-case
ASCII literal) is found in the lower-cased text. -/
theorem includes_lower_head (E : Engine) (p kw rest : JSString)
    (h : p.map canonicalize = kw.map canonicalize) (hk : ∀ c ∈ kw, c < 128)
    (hlow : kw.map asciiLower = kw) :
    ∃ t, E.toLowerCase (p ++ rest) = kw ++ t := by
  obtain ⟨t, ht⟩ := E.lower_ascii_head p rest (ascii_of_canon_eq p kw h hk)
  exact ⟨t, by rw [ht, lower_of_canon_eq p kw h, hlow]⟩

theorem includes_append_right (a b kw : JSString) (h : includes a kw = true) :
    includes (a ++ b) kw = true := by
  obtain ⟨x, y, rfl⟩ := (includes_iff _ _).1 h
  exact (includes_iff _ _).2 ⟨x, y ++ b, by simp⟩

theorem matchesAt_of_canon (a m rest : JSString)
    (h : m.map canonicalize = a.map canonicalize) : matchesAt a (m ++ rest) = true :=
  (matchesAt_iff _ _).2 ⟨m, rest, rfl, h⟩

theorem matchesAt_head_ne (a c : Nat) (as cs : JSString)
    (h : canonicalize a ≠ canonicalize c) : matchesAt (a :: as) (c :: cs) = false := by
  simp [matchesAt, h]

theorem matchLength_skip (a : JSString) (as : List JSString) (s : JSString)
    (h : matchesAt a s = false) : matchLength (a :: as) s = matchLength as s := by
  simp [matchLength, h]

theorem matchLength_first (a : JSString) (as : List JSString) (m rest : JSString)
    (h : m.map canonicalize = a.map canonicalize) :
    matchLength (a :: as) (m ++ rest) = some m.length := by
  have hl : a.length = m.length := by simpa using (congrArg List.length h).symm
  simp [matchLength, matchesAt_of_canon a m rest h, hl]

/-! ## `interpretQuery` by rule -/

theorem interpretQuery_eq (E : Engine) (text : JSString) :
    interpretQuery E text
      = { interpretation := ruleLabel (firstRule (E.toLowerCase text))
            ++ rewritten (firstRule (E.toLowerCase text)) text,
          searchQuery := rewritten (firstRule (E.toLowerCase text)) text } := by
  simp only [interpretQuery, firstRule, rule1, rule2, rule3, rule4, rule5]
  split_ifs <;> rfl

theorem firstRule_holds (l : JSString) :
    firstRule l = 6 ∨ ruleHolds (firstRule l) l = true := by
  unfold firstRule
  split_ifs <;> simp_all [ruleHolds]

theorem firstRule_le (l : JSString) (j : Nat) (h : ruleHolds j l = true) :
    firstRule l ≤ j := by
  unfold firstRule
  unfold ruleHolds at h
  split at h <;> split_ifs <;> simp_all

theorem ruleHolds_le (j : Nat) (l : JSString) (h : ruleHolds j l = true) : j ≤ 5 := by
  unfold ruleHolds at h
  split at h <;> first | omega | cases h

theorem firstRule_range (l : JSString) : 1 ≤ firstRule l ∧ firstRule l ≤ 6 := by
  unfold firstRule
  split_ifs <;> simp

theorem interpretQuery_ascii (E : Engine) (text : JSString) (h : ∀ c ∈ text, c < 128) :
    interpretQuery E text = interpretQuery asciiEngine text := by
  have e : E.toLowerCase text = asciiEngine.toLowerCase text := E.lower_ascii text h
  simp only [interpretQuery, e]

/-! ## The pass of `replace` and the relation `Stripped` -/

theorem matchLength_some (alts : List JSString) (s : JSString) (n : Nat)
    (h : matchLength alts s = some n) :
    ∃ before alt after m rest, alts = before ++ alt :: after ∧
      (∀ a ∈ before, matchesAt a s = false) ∧ s = m ++ rest ∧
      m.map canonicalize = alt.map canonicalize ∧ n = m.length ∧ n = alt.length := by
  induction alts with
  | nil => cases h
  | cons a as ih =>
    simp only [matchLength] at h
    split at h
    · rename_i ha
      obtain ⟨m, rest, hs, hm⟩ := (matchesAt_iff _ _).1 ha
      have hl : m.length = a.length := by simpa using congrArg List.length hm
      cases h
      exact ⟨[], a, as, m, rest, rfl, by simp, hs, hm, hl.symm, rfl⟩
    · rename_i ha
      obtain ⟨before, alt, after, m, rest, h1, h2, h3, h4, h5, h6⟩ := ih h
      refine ⟨a :: before, alt, after, m, rest, by simp [h1], ?_, h3, h4, h5, h6⟩
      intro x hx
      rcases List.mem_cons.1 hx with rfl | hx
      · simpa using ha
      · exact h2 x hx

theorem matchLength_at (before : List JSString) (alt : JSString) (after : List JSString)
    (m rest : JSString) (hb : ∀ a ∈ before, matchesAt a (m ++ rest) = false)
    (hm : m.map canonicalize = alt.map canonicalize) :
    matchLength (before ++ alt :: after) (m ++ rest) = some m.length := by
  induction before with
  | nil => exact matchLength_first _ _ _ _ hm
  | cons a as ih =>
    rw [List.cons_append, matchLength_skip _ _ _ (hb a (List.mem_cons_self _ _))]
    exact ih fun x hx => hb x (List.mem_cons_of_mem _ hx)

theorem stripped_removeFrom (alts : List JSString) (hne : ∀ a ∈ alts, a ≠ [])
    (n : Nat) : ∀ s : JSString, s.length ≤ n → Stripped alts s (removeFrom alts 0 s) := by
  induction n with
  | zero =>
    intro s hs
    have : s = [] := List.length_eq_zero.1 (Nat.le_zero.1 hs)
    subst this
    exact Stripped.done
  | succ n ih =>
    intro s hs
    cases s with
    | nil => exact Stripped.done
    | cons c cs =>
      have hcs : cs.length ≤ n := by simpa using hs
      cases hml : matchLength alts (c :: cs) with
      | none =>
        rw [removeFrom_keep _ _ _ hml]
        exact Stripped.keep c cs _ ((matchLength_eq_none_iff _ _).1 hml) (ih cs hcs)
      | some k =>
        obtain ⟨before, alt, after, m, rest, h1, h2, h3, h4, h5, h6⟩ :=
          matchLength_some alts _ k hml
        have hmne : m ≠ [] := by
          intro hm0
          have halt : alt ∈ alts := by rw [h1]; simp
          have : alt.length = 0 := by rw [← h6, h5, hm0]; rfl
          exact hne alt halt (List.length_eq_zero.1 this)
        have hrest : rest.length ≤ n := by
          have := congrArg List.length h3
          have hpos : 0 < m.length := List.length_pos.2 hmne
          simp only [List.length_cons, List.length_append] at this
          omega
        rw [h3] at hml ⊢
        rw [h5] at hml
        rw [removeFrom_match _ _ _ hmne hml]
        rw [h3] at h2
        exact Stripped.delete before alt after m rest _ h1 h2 hmne h4 (ih rest hrest)

theorem stripped_removeAll (alts : List JSString) (hne : ∀ a ∈ alts, a ≠ [])
    (text : JSString) : Stripped alts text (removeAll alts text) :=
  stripped_removeFrom alts hne text.length text (Nat.le_refl _)

theorem stripped_unique (alts : List JSString) (text out : JSString)
    (h : Stripped alts text out) : out = removeAll alts text := by
  unfold removeAll
  induction h with
  | done => rfl
  | keep c cs out hno _ ih =>
    rw [removeFrom_keep _ _ _ (matchLength_eq_none _ _ hno), ih]
  | delete before alt after m rest out h1 h2 hmne hm _ ih =>
    have hml : matchLength alts (m ++ rest) = some m.length := by
      rw [h1]; exact matchLength_at before alt after m rest h2 hm
    rw [removeFrom_match _ _ _ hmne hml, ih]

theorem rulePhrases_ne_nil (k : Nat) (phrases : List JSString)
    (h : rulePhrases k = some phrases) : ∀ a ∈ phrases, a ≠ [] := by
  unfold rulePhrases at h
  split at h <;> cases h <;> decide

/-! ## The pass of `replace(/\s+/g, '-')` -/

theorem hyphenateFrom_no_space (b : Bool) (q : JSString) :
    ∀ c ∈ hyphenateFrom b q, isWhiteSpace c = false := by
  induction q generalizing b with
  | nil => intro c hc; cases hc
  | cons x xs ih =>
    intro c hc
    simp only [hyphenateFrom] at hc
    split at hc
    · split at hc
      · exact ih _ c hc
      · rcases List.mem_cons.1 hc with rfl | hc
        · decide
        · exact ih _ c hc
    · rename_i hx
      rcases List.mem_cons.1 hc with rfl | hc
      · simpa using hx
      · exact ih _ c hc

theorem hyphenateFrom_clean (b : Bool) (q : JSString)
    (h : ∀ c ∈ q, isWhiteSpace c = false) : hyphenateFrom b q = q := by
  induction q generalizing b with
  | nil => rfl
  | cons x xs ih =>
    have hx := h x (List.mem_cons_self _ _)
    simp only [hyphenateFrom, hx, Bool.false_eq_true, if_false]
    rw [ih _ fun c hc => h c (List.mem_cons_of_mem _ hc)]

theorem hyphenateFrom_cons_space (b : Bool) (c : Nat) (cs : JSString)
    (h : isWhiteSpace c = true) :
    hyphenateFrom b (c :: cs)
      = if b = true then hyphenateFrom true cs else 45 :: hyphenateFrom true cs := by
  rw [hyphenateFrom]; simp [h]

theorem hyphenateFrom_cons_other (b : Bool) (c : Nat) (cs : JSString)
    (h : isWhiteSpace c = false) :
    hyphenateFrom b (c :: cs) = c :: hyphenateFrom false cs := by
  rw [hyphenateFrom]; simp [h]

theorem hyphenateFrom_true_of_head (v : JSString) (hv : noLeadingSpace v) :
    hyphenateFrom true v = hyphenateFrom false v := by
  cases v with
  | nil => rfl
  | cons c cs =>
    have := hv c rfl
    rw [hyphenateFrom_cons_other _ _ _ this, hyphenateFrom_cons_other _ _ _ this]

theorem hyphenateFrom_true_run (w v : JSString) (hw : ∀ c ∈ w, isWhiteSpace c = true)
    (hv : noLeadingSpace v) : hyphenateFrom true (w ++ v) = hyphenateFrom false v := by
  induction w with
  | nil => exact hyphenateFrom_true_of_head v hv
  | cons x xs ih =>
    have hx := hw x (List.mem_cons_self _ _)
    rw [List.cons_append, hyphenateFrom_cons_space _ _ _ hx, if_pos rfl]
    exact ih fun c hc => hw c (List.mem_cons_of_mem _ hc)

theorem hyphenate_run (w v : JSString) (hne : w ≠ [])
    (hw : ∀ c ∈ w, isWhiteSpace c = true) (hv : noLeadingSpace v) :
    hyphenate (w ++ v) = 45 :: hyphenate v := by
  cases w with
  | nil => exact absurd rfl hne
  | cons x xs =>
    have hx := hw x (List.mem_cons_self _ _)
    unfold hyphenate
    rw [List.cons_append, hyphenateFrom_cons_space _ _ _ hx, if_neg (by decide),
      hyphenateFrom_true_run xs v (fun c hc => hw c (List.mem_cons_of_mem _ hc)) hv]

theorem noTrailingSpace_tail (c d : Nat) (u : JSString) (h : noTrailingSpace (c :: d :: u)) :
    noTrailingSpace (d :: u) := by
  intro x hx
  exact h x (by rw [List.getLast?_cons_cons]; exact hx)

theorem hyphenateFrom_append (b : Bool) (u r : JSString) (hne : u ≠ [])
    (hu : noTrailingSpace u) :
    hyphenateFrom b (u ++ r) = hyphenateFrom b u ++ hyphenateFrom false r := by
  induction u generalizing b with
  | nil => exact absurd rfl hne
  | cons c cs ih =>
    cases cs with
    | nil =>
      have hc : isWhiteSpace c = false := hu c rfl
      rw [List.singleton_append, hyphenateFrom_cons_other _ _ _ hc,
        hyphenateFrom_cons_other _ _ _ hc]
      rfl
    | cons d ds =>
      have ih2 := fun b => ih b (List.cons_ne_nil _ _) (noTrailingSpace_tail c d ds hu)
      rw [List.cons_append]
      cases hc : isWhiteSpace c with
      | true =>
        rw [hyphenateFrom_cons_space _ _ _ hc, hyphenateFrom_cons_space _ _ _ hc]
        split
        · exact ih2 true
        · rw [ih2 true]; rfl
      | false =>
        rw [hyphenateFrom_cons_other _ _ _ hc, hyphenateFrom_cons_other _ _ _ hc, ih2 false]
        rfl

theorem hyphenate_append (u r : JSString) (hu : noTrailingSpace u) :
    hyphenate (u ++ r) = hyphenate u ++ hyphenate r := by
  cases u with
  | nil => rfl
  | cons c cs => exact hyphenateFrom_append false _ r (List.cons_ne_nil _ _) hu

theorem hyphenateFrom_single (q : JSString)
    (h1 : ∀ c ∈ q, isWhiteSpace c = true → c = 32)
    (h2 : includes q [32, 32] = false) (b : Bool)
    (hb : b = true → ∀ c, q.head? = some c → c ≠ 32) :
    hyphenateFrom b q = q.map fun c => if c = 32 then 45 else c := by
  induction q generalizing b with
  | nil => rfl
  | cons x xs ih =>
    have h1t : ∀ c ∈ xs, isWhiteSpace c = true → c = 32 :=
      fun c hc => h1 c (List.mem_cons_of_mem _ hc)
    have h2s : startsWith (x :: xs) [32, 32] = false ∧ includes xs [32, 32] = false := by
      simpa [includes] using h2
    by_cases hx : isWhiteSpace x = true
    · have hx32 : x = 32 := h1 x (List.mem_cons_self _ _) hx
      subst hx32
      have hbf : b = false := by
        cases b with
        | false => rfl
        | true => exact absurd rfl (hb rfl 32 rfl)
      subst hbf
      have hhead : ∀ c, xs.head? = some c → c ≠ 32 := by
        intro c hc hc32
        subst hc32
        obtain ⟨ys, rfl⟩ : ∃ ys, xs = 32 :: ys := by
          cases xs with
          | nil => cases hc
          | cons y ys => simp only [List.head?_cons, Option.some.injEq] at hc; exact ⟨ys, by rw [hc]⟩
        have := h2s.1
        simp [startsWith] at this
      simp only [hyphenateFrom, hx, if_true, Bool.false_eq_true, if_false, List.map_cons]
      rw [ih h1t h2s.2 true fun _ => hhead]
    · have hxf : isWhiteSpace x = false := by simpa using hx
      have hx32 : x ≠ 32 := by
        intro h; subst h; exact absurd (by decide) hx
      simp only [hyphenateFrom, hxf, Bool.false_eq_true, if_false, List.map_cons, hx32]
      rw [ih h1t h2s.2 false (fun h => by cases h)]

theorem urls_eq (E : Engine) (q : JSString) :
    (performSearch E q).map (fun r => r.url) = urlHeads.map fun h => h ++ slug E q := rfl

theorem transcripts_fst (l : List SpeechResult) (a b : JSString) :
    (l.foldl accumulate (a, b)).1
      = a ++ (l.filter fun r => r.isFinal).flatMap fun r => r.transcript ++ lit " " := by
  induction l generalizing a b with
  | nil => simp
  | cons r rs ih =>
    simp only [List.foldl_cons, accumulate]
    cases hr : r.isFinal with
    | true => simp [ih, hr]
    | false => simp [ih, hr]

/-! ## Claims -/

/-- C4. A text made of `search for` in any letter case, one space, and a string
`s` that has no white space at either end and no case-insensitive occurrence
of a phrase of the first removal list, is interpreted with `searchQuery = s`
and `interpretation = "Searching for: " ++ s`. -/
theorem searchFor_query (E : Engine) (p s : JSString)
    (hp : p.map canonicalize = (lit "search for").map canonicalize)
    (hl : noLeadingSpace s) (ht : noTrailingSpace s)
    (hs : ∀ ph ∈ searchPhrases, occursCI s ph = false) :
    interpretQuery E (p ++ lit " " ++ s)
      = { interpretation := lit "Searching for: " ++ s, searchQuery := s } := by
  obtain ⟨t, ht1⟩ := includes_lower_head E p (lit "search for") (lit " " ++ s) hp
    (by decide) (by decide)
  have hfire : includes (E.toLowerCase (p ++ lit " " ++ s)) (lit "search for") = true := by
    rw [List.append_assoc, ht1]; exact includes_head _ _
  have hne : p ≠ [] := by
    intro h; rw [h] at hp; exact absurd hp (by decide)
  have hstrip : removeAll searchPhrases (p ++ lit " " ++ s) = 32 :: s := by
    have h1 : matchLength searchPhrases (p ++ (lit " " ++ s)) = some p.length := by
      obtain ⟨c0, p1, rfl⟩ := List.exists_cons_of_ne_nil hne
      have h0 : canonicalize c0 = 83 := by
        have := congrArg List.head? hp
        simpa [lit_search_for, canonicalize] using this
      unfold searchPhrases
      rw [lit_find, List.cons_append,
        matchLength_skip _ _ _ (matchesAt_head_ne _ _ _ _ (by rw [h0]; decide)),
        ← List.cons_append]
      exact matchLength_first _ _ _ _ hp
    have h2 : matchLength searchPhrases (32 :: s) = none := by
      apply matchLength_eq_none
      intro alt halt
      simp only [searchPhrases, List.mem_cons, List.mem_singleton, List.not_mem_nil,
        or_false] at halt
      rcases halt with rfl | rfl | rfl | rfl | rfl <;>
        simp [lit_find, lit_search_for, lit_look_for, lit_please, lit_can_you, matchesAt,
          canonicalize]
    rw [removeAll, List.append_assoc, removeFrom_match _ _ _ hne h1, lit_space,
      List.singleton_append, removeFrom_keep _ _ _ h2, removeFrom_clean _ _ hs]
  have htrim : trim (32 :: s) = s := by
    rw [trim_cons_space _ _ (by decide), trim_of_clean s hl ht]
  simp only [interpretQuery, hfire, Bool.or_true, Bool.true_or, if_true, hstrip, htrim]

/-- C4, at the spec's example `search for JavaScript tutorials`. -/
theorem searchFor_query_witness :
    lit "search for" ++ lit " " ++ lit "JavaScript tutorials"
        = lit "search for JavaScript tutorials"
    ∧ interpretQuery asciiEngine (lit "search for JavaScript tutorials")
        = { interpretation := lit "Searching for: JavaScript tutorials",
            searchQuery := lit "JavaScript tutorials" } := by
  have h := searchFor_query asciiEngine (lit "search for") (lit "JavaScript tutorials")
    (by decide) (by decide) (by decide) (by decide)
  have e : lit "search for" ++ lit " " ++ lit "JavaScript tutorials"
      = lit "search for JavaScript tutorials" := by decide
  rw [e] at h
  exact ⟨e, h.trans (by decide)⟩

/-- C5. A text made of `weather in` in any letter case, one space, and a string
`s` that has no white space at either end and no case-insensitive occurrence
of `weather`, `in` or `for`, whose lower-cased form contains no keyword of
rules 1 to 3, is interpreted with `searchQuery = s` and
`interpretation = "Weather information for: " ++ s`. -/
theorem weatherIn_query (E : Engine) (p s : JSString)
    (hp : p.map canonicalize = (lit "weather in").map canonicalize)
    (hl : noLeadingSpace s) (ht : noTrailingSpace s)
    (hs : ∀ ph ∈ weatherPhrases, occursCI s ph = false)
    (h1 : rule1 (E.toLowerCase (p ++ lit " " ++ s)) = false)
    (h2 : rule2 (E.toLowerCase (p ++ lit " " ++ s)) = false)
    (h3 : rule3 (E.toLowerCase (p ++ lit " " ++ s)) = false) :
    interpretQuery E (p ++ lit " " ++ s)
      = { interpretation := lit "Weather information for: " ++ s, searchQuery := s } := by
  obtain ⟨t, ht1⟩ := includes_lower_head E p (lit "weather in") (lit " " ++ s) hp
    (by decide) (by decide)
  have hfire : includes (E.toLowerCase (p ++ lit " " ++ s)) (lit "weather") = true := by
    rw [List.append_assoc, ht1]
    have e : lit "weather in" = lit "weather" ++ lit " in" := by decide
    rw [e, List.append_assoc]; exact includes_head _ _
  have hsplit : (lit "weather in").map canonicalize
      = (lit "weather").map canonicalize ++ (32 :: (lit "in").map canonicalize) := by decide
  rw [hsplit] at hp
  obtain ⟨pw, q, rfl, hpw, hq⟩ := List.map_eq_append_iff.1 hp
  obtain ⟨sp, pin, rfl, hsp, hpin⟩ := List.map_eq_cons_iff.1 hq
  have hsp32 : sp = 32 := by
    unfold canonicalize at hsp; split at hsp <;> omega
  subst hsp32
  have hpwne : pw ≠ [] := by
    intro h; rw [h] at hpw; exact absurd hpw (by decide)
  have hpinne : pin ≠ [] := by
    intro h; rw [h] at hpin; exact absurd hpin (by decide)
  have hsp : ∀ rest : JSString, matchLength weatherPhrases (32 :: rest) = none := by
    intro rest
    apply matchLength_eq_none
    intro alt halt
    simp only [weatherPhrases, List.mem_cons, List.mem_singleton, List.not_mem_nil,
      or_false] at halt
    rcases halt with rfl | rfl | rfl <;>
      simp [lit_weather, lit_in, lit_for, matchesAt, canonicalize]
  have hstrip : removeAll weatherPhrases (pw ++ 32 :: pin ++ lit " " ++ s) = 32 :: 32 :: s := by
    have m1 : matchLength weatherPhrases (pw ++ (32 :: (pin ++ (32 :: s)))) = some pw.length := by
      unfold weatherPhrases
      exact matchLength_first _ _ _ _ hpw
    have m2 : matchLength weatherPhrases (pin ++ (32 :: s)) = some pin.length := by
      obtain ⟨c0, p1, rfl⟩ := List.exists_cons_of_ne_nil hpinne
      have h0 : canonicalize c0 = 73 := by
        have := congrArg List.head? hpin
        simpa [lit_in, canonicalize] using this
      unfold weatherPhrases
      rw [lit_weather, List.cons_append,
        matchLength_skip _ _ _ (matchesAt_head_ne _ _ _ _ (by rw [h0]; decide)),
        ← List.cons_append]
      exact matchLength_first _ _ _ _ hpin
    have e : pw ++ 32 :: pin ++ lit " " ++ s = pw ++ (32 :: (pin ++ (32 :: s))) := by
      simp [lit_space]
    rw [removeAll, e, removeFrom_match _ _ _ hpwne m1, removeFrom_keep _ _ _ (hsp _),
      removeFrom_match _ _ _ hpinne m2, removeFrom_keep _ _ _ (hsp _),
      removeFrom_clean _ _ hs]
  have htrim : trim (32 :: 32 :: s) = s := by
    rw [trim_cons_space _ _ (by decide), trim_cons_space _ _ (by decide),
      trim_of_clean s hl ht]
  simp only [rule1, rule2, rule3] at h1 h2 h3
  simp only [interpretQuery, h1, h2, h3, hfire, Bool.false_eq_true, if_false, if_true,
    hstrip, htrim]

/-- C5, at the spec's example `Weather in New York`. -/
theorem weatherIn_query_witness :
    lit "Weather in" ++ lit " " ++ lit "New York" = lit "Weather in New York"
    ∧ interpretQuery asciiEngine (lit "Weather in New York")
        = { interpretation := lit "Weather information for: New York",
            searchQuery := lit "New York" } := by
  have h := weatherIn_query asciiEngine (lit "Weather in") (lit "New York")
    (by decide) (by decide) (by decide) (by decide) (by decide) (by decide) (by decide)
  have e : lit "Weather in" ++ lit " " ++ lit "New York" = lit "Weather in New York" := by
    decide
  rw [e] at h
  exact ⟨e, h.trans (by decide)⟩

/-- C1. The interpretation is a label followed by the search query, the label
being chosen on the lower-cased text by the first test that succeeds, in this
order: `find`, `search for` or `look for`; `what is`, `who is` or `where is`;
`how to`; `weather`; `news`; else the general label.  So when keywords of two
rules occur, the label is that of a rule not later than the earlier of the two,
never that of the later one, as on `find the weather report`. -/
theorem interpretation_first_match (E : Engine) :
    (∀ text : JSString,
      (interpretQuery E text).interpretation
        = (if includes (E.toLowerCase text) (lit "find") = true
              ∨ includes (E.toLowerCase text) (lit "search for") = true
              ∨ includes (E.toLowerCase text) (lit "look for") = true then
            lit "Searching for: "
          else if includes (E.toLowerCase text) (lit "what is") = true
              ∨ includes (E.toLowerCase text) (lit "who is") = true
              ∨ includes (E.toLowerCase text) (lit "where is") = true then
            lit "Information query: "
          else if includes (E.toLowerCase text) (lit "how to") = true then
            lit "Tutorial search: "
          else if includes (E.toLowerCase text) (lit "weather") = true then
            lit "Weather information for: "
          else if includes (E.toLowerCase text) (lit "news") = true then
            lit "Latest news about: "
          else lit "General search: ")
          ++ (interpretQuery E text).searchQuery)
    ∧ (∀ (text : JSString) (i j : Nat), i < j →
        ruleHolds i (E.toLowerCase text) = true → ruleHolds j (E.toLowerCase text) = true →
        ∃ k, k ≤ i ∧ ruleHolds k (E.toLowerCase text) = true
          ∧ (interpretQuery E text).interpretation
              = ruleLabel k ++ (interpretQuery E text).searchQuery
          ∧ ruleLabel k ≠ ruleLabel j)
    ∧ ruleHolds 1 (E.toLowerCase (lit "find the weather report")) = true
    ∧ ruleHolds 4 (E.toLowerCase (lit "find the weather report")) = true
    ∧ (interpretQuery E (lit "find the weather report")).interpretation
        = lit "Searching for: " ++ lit "the weather report" := by
  refine ⟨fun text => ?_, fun text i j hij hi hj => ?_, ?_, ?_, ?_⟩
  · simp only [interpretQuery, Bool.or_eq_true]
    split_ifs <;> first | rfl | (exfalso; tauto)
  · have hk := firstRule_le _ i hi
    have hi5 : i ≤ 5 := ruleHolds_le _ _ hi
    have hj5 : j ≤ 5 := ruleHolds_le _ _ hj
    have h1 := (firstRule_range (E.toLowerCase text)).1
    refine ⟨firstRule (E.toLowerCase text), hk, ?_, ?_, ?_⟩
    · rcases firstRule_holds (E.toLowerCase text) with h6 | h
      · omega
      · exact h
    · rw [interpretQuery_eq]
    · have key : ∀ k < 6, ∀ j < 6, 1 ≤ k → k < j → ruleLabel k ≠ ruleLabel j := by decide
      exact key _ (by omega) _ (by omega) h1 (by omega)
  · rw [E.lower_ascii _ (by decide)]; decide
  · rw [E.lower_ascii _ (by decide)]; decide
  · rw [interpretQuery_ascii E _ (by decide)]; decide

/-- C6. When the information rule, the tutorial rule or the general fallback
fires, the query is the text itself, unchanged, and the interpretation is the
label of that rule followed by the text. -/
theorem unmodified_query (E : Engine) (text : JSString)
    (h : firstRule (E.toLowerCase text) = 2 ∨ firstRule (E.toLowerCase text) = 3
      ∨ firstRule (E.toLowerCase text) = 6) :
    (interpretQuery E text).searchQuery = text
      ∧ (interpretQuery E text).interpretation
          = ruleLabel (firstRule (E.toLowerCase text)) ++ text := by
  rw [interpretQuery_eq]
  rcases h with h | h | h <;> simp [h, rewritten, rulePhrases]

/-- C6, at the spec's example `What is artificial intelligence?`. -/
theorem unmodified_query_witness :
    firstRule (asciiEngine.toLowerCase (lit "What is artificial intelligence?")) = 2
      ∧ (interpretQuery asciiEngine (lit "What is artificial intelligence?")).searchQuery
          = lit "What is artificial intelligence?"
      ∧ (interpretQuery asciiEngine (lit "What is artificial intelligence?")).interpretation
          = lit "Information query: What is artificial intelligence?" := by
  have h := unmodified_query asciiEngine (lit "What is artificial intelligence?")
    (Or.inl (by decide))
  refine ⟨by decide, h.1, ?_⟩
  rw [h.2]; decide

/-- C2, refuted as stated: the text `find` is not empty and its search query is. -/
theorem empty_query_counterexample :
    lit "find" ≠ [] ∧ ∀ E : Engine, (interpretQuery E (lit "find")).searchQuery = [] := by
  refine ⟨by decide, fun E => ?_⟩
  rw [interpretQuery_ascii E _ (by decide)]; decide

/-- C2, amended. For a non-empty text the search query is non-empty when rule
2, rule 3 or the fallback fires, and, when a stripping rule (1, 4 or 5) fires,
when the text left by the removal of its phrases has a code unit that is not
white space. -/
theorem query_nonempty (E : Engine) (text : JSString) (hne : text ≠ [])
    (h : rulePhrases (firstRule (E.toLowerCase text)) = none
      ∨ ∃ phrases, rulePhrases (firstRule (E.toLowerCase text)) = some phrases
          ∧ ∃ c ∈ removeAll phrases text, isWhiteSpace c = false) :
    (interpretQuery E text).searchQuery ≠ [] := by
  rw [interpretQuery_eq]
  simp only [rewritten]
  rcases h with h | ⟨phrases, h, c, hc, hcw⟩
  · simpa [h] using hne
  · simp only [h]
    intro hnil
    have := (trim_eq_nil_iff _).1 hnil c hc
    rw [hcw] at this
    cases this

/-- C2 amended, at the text `find cats`, where rule 1 fires and ` cats` is left. -/
theorem query_nonempty_witness :
    lit "find cats" ≠ []
    ∧ rulePhrases (firstRule (asciiEngine.toLowerCase (lit "find cats"))) = some searchPhrases
    ∧ removeAll searchPhrases (lit "find cats") = lit " cats"
    ∧ (interpretQuery asciiEngine (lit "find cats")).searchQuery ≠ [] :=
  ⟨by decide, by decide, by decide,
    query_nonempty asciiEngine (lit "find cats") (by decide)
      (Or.inr ⟨searchPhrases, by decide, 99, by decide, by decide⟩)⟩

/-- C3, refuted as stated: on `fifindnd` rule 1 fires and the search query is
`find`, which contains the removal phrase `find`. -/
theorem stripping_counterexample :
    (lit "find" ∈ searchPhrases ∧ occursCI (lit "find") (lit "find") = true) ∧
    ∀ E : Engine, firstRule (E.toLowerCase (lit "fifindnd")) = 1
      ∧ (interpretQuery E (lit "fifindnd")).searchQuery = lit "find" := by
  refine ⟨by decide, fun E => ⟨?_, ?_⟩⟩
  · rw [E.lower_ascii _ (by decide)]; decide
  · rw [interpretQuery_ascii E _ (by decide)]; decide

/-- C3, amended. When a stripping rule fires, the search query is the trimmed
result of one left-to-right pass over the text that deletes, at each position
it reaches where a phrase of the rule matches ignoring case, the first such
phrase of the list, and goes on behind it (`Stripped`); that pass has exactly
one result. -/
theorem stripping_pass (E : Engine) (text : JSString) (phrases : List JSString)
    (h : rulePhrases (firstRule (E.toLowerCase text)) = some phrases) :
    (∃ g, Stripped phrases text g)
      ∧ ∀ g, Stripped phrases text g → (interpretQuery E text).searchQuery = trim g := by
  refine ⟨⟨_, stripped_removeAll phrases (rulePhrases_ne_nil _ _ h) text⟩, ?_⟩
  intro g hg
  rw [interpretQuery_eq, stripped_unique _ _ _ hg]
  simp only [rewritten, h]

/-- C3 amended, at the text `fifindnd`. -/
theorem stripping_pass_witness :
    rulePhrases (firstRule (asciiEngine.toLowerCase (lit "fifindnd"))) = some searchPhrases
    ∧ (∃ g, Stripped searchPhrases (lit "fifindnd") g)
    ∧ ∀ g, Stripped searchPhrases (lit "fifindnd") g →
        (interpretQuery asciiEngine (lit "fifindnd")).searchQuery = trim g :=
  ⟨by decide, stripping_pass asciiEngine (lit "fifindnd") searchPhrases (by decide)⟩

/-- C7. The search yields exactly five records whose titles are the five
templates around the query, in the order of the source, and every snippet
contains the query itself. -/
theorem search_titles_snippets (E : Engine) (q : JSString) :
    (performSearch E q).length = 5
      ∧ (performSearch E q).map (fun r => r.title)
          = [q ++ lit " - Complete Guide", lit "Top 10 " ++ q ++ lit " Resources",
             q ++ lit " - Latest News and Updates", lit "Understanding " ++ q,
             q ++ lit " Community Forum"]
      ∧ ∀ r ∈ performSearch E q, includes r.snippet q = true := by
  refine ⟨rfl, rfl, ?_⟩
  intro r hr
  simp only [performSearch, List.mem_cons, List.mem_singleton, List.not_mem_nil,
    or_false] at hr
  rcases hr with rfl | rfl | rfl | rfl | rfl <;> exact (includes_iff _ _).2 ⟨_, _, rfl⟩

/-- C8, refuted as stated: for `cats  now` (two spaces) the URLs end in
`cats-now`, while replacing every space by a hyphen gives `cats--now`. -/
theorem space_slug_counterexample :
    hyphenate (lit "cats  now") = lit "cats-now" ∧
    ∀ E : Engine,
      (performSearch E (lit "cats  now")).map (fun r => r.url)
          = urlHeads.map (fun h => h ++ lit "cats-now")
      ∧ urlHeads.map (fun h => h ++ spaceSlug E (lit "cats  now"))
          = urlHeads.map (fun h => h ++ lit "cats--now")
      ∧ (performSearch E (lit "cats  now")).map (fun r => r.url)
          ≠ urlHeads.map (fun h => h ++ spaceSlug E (lit "cats  now")) := by
  refine ⟨by decide, fun E => ?_⟩
  have e1 : slug E (lit "cats  now") = lit "cats-now" := by
    unfold slug
    rw [show hyphenate (lit "cats  now") = lit "cats-now" by decide,
      E.lower_ascii _ (by decide)]
    decide
  have e2 : spaceSlug E (lit "cats  now") = lit "cats--now" := by
    unfold spaceSlug
    rw [E.lower_ascii _ (by decide)]
    decide
  rw [urls_eq, e1, e2]
  exact ⟨rfl, rfl, by decide⟩

/-- C8, amended. When the white space of the query consists of single space
characters (no other white space, no two spaces in a row), the five URLs are
the five fixed beginnings, in order, each followed by the query with every
space replaced by a hyphen and then lower-cased. -/
theorem urls_single_spaces (E : Engine) (q : JSString)
    (h1 : ∀ c ∈ q, isWhiteSpace c = true → c = 32)
    (h2 : includes q [32, 32] = false) :
    (performSearch E q).map (fun r => r.url) = urlHeads.map fun h => h ++ spaceSlug E q := by
  rw [urls_eq]
  unfold slug spaceSlug hyphenate
  rw [hyphenateFrom_single q h1 h2 false (fun h => by cases h)]

/-- C8 amended, at the spec's example `JavaScript tutorials`. -/
theorem urls_single_spaces_witness :
    (performSearch asciiEngine (lit "JavaScript tutorials")).map (fun r => r.url)
      = urlHeads.map (fun h => h ++ spaceSlug asciiEngine (lit "JavaScript tutorials"))
    ∧ spaceSlug asciiEngine (lit "JavaScript tutorials") = lit "javascript-tutorials" :=
  ⟨urls_single_spaces asciiEngine (lit "JavaScript tutorials") (by decide) (by decide),
    by decide⟩

/-- C9, refuted as stated: on an event whose only entry is final with an empty
transcript, `processVoiceInput` is called with the empty string. -/
theorem onresult_counterexample :
    (onresult { resultIndex := 0, results := [{ transcript := [], isFinal := true }] }).processed
      = some [] := by
  decide

/-- C9, amended. When the handler calls `processVoiceInput`, the text is the
trimmed concatenation of the final transcripts, each followed by one space;
that concatenation is not empty; and the text is not empty when some final
transcript has a code unit that is not white space. -/
theorem onresult_text (event : ResultEvent) (text : JSString)
    (h : (onresult event).processed = some text) :
    finalText event ≠ [] ∧ text = trim (finalText event)
      ∧ ((∃ r ∈ event.results.drop event.resultIndex, r.isFinal = true
            ∧ ∃ c ∈ r.transcript, isWhiteSpace c = false) → text ≠ []) := by
  have e : (transcripts event).1 = finalText event := by
    unfold transcripts finalText
    rw [transcripts_fst]; rfl
  simp only [onresult, e] at h
  split at h
  · rename_i hne
    cases h
    refine ⟨hne, rfl, ?_⟩
    rintro ⟨r, hr, hfin, c, hc, hcw⟩ hnil
    have hmem : c ∈ finalText event := by
      unfold finalText
      exact List.mem_flatMap.2 ⟨r, List.mem_filter.2 ⟨hr, by simpa using hfin⟩,
        List.mem_append_left _ hc⟩
    have := (trim_eq_nil_iff _).1 hnil c hmem
    rw [hcw] at this
    cases this
  · cases h

/-- C9 amended, at an event with an interim entry before `resultIndex` and two
final entries from it on. -/
theorem onresult_text_witness :
    (onresult sampleEvent).processed = some (lit "find cats now")
    ∧ finalText sampleEvent = lit "find cats now "
    ∧ lit "find cats now" = trim (finalText sampleEvent) := by
  have hp : (onresult sampleEvent).processed = some (lit "find cats now") := by decide
  exact ⟨hp, by decide, (onresult_text _ _ hp).2.1⟩

/-- C10. No URL of the five records contains a white-space code unit, whatever
the query: the URL is its fixed beginning followed by the slug; a query
without white space is only lower-cased; and a maximal run `w` of white space
(of any kind and length) between `u` and `v` gives exactly one hyphen between
the slug of `u` and the slug of `v`. -/
theorem urls_runs (E : Engine) :
    (∀ q : JSString,
      (performSearch E q).map (fun r => r.url) = urlHeads.map fun h => h ++ slug E q)
    ∧ (∀ q : JSString, ∀ r ∈ performSearch E q, ∀ c ∈ r.url, isWhiteSpace c = false)
    ∧ (∀ q : JSString, (∀ c ∈ q, isWhiteSpace c = false) → slug E q = E.toLowerCase q)
    ∧ (∀ u w v : JSString, noTrailingSpace u → w ≠ [] →
        (∀ c ∈ w, isWhiteSpace c = true) → noLeadingSpace v →
        slug E (u ++ w ++ v) = slug E u ++ 45 :: slug E v) := by
  refine ⟨fun q => rfl, ?_, ?_, ?_⟩
  · intro q r hr c hc
    have hmem : r.url ∈ urlHeads.map fun h => h ++ slug E q := by
      rw [← urls_eq]; exact List.mem_map_of_mem _ hr
    obtain ⟨h, hh, heq⟩ := List.mem_map.1 hmem
    rw [← heq] at hc
    rcases List.mem_append.1 hc with hc | hc
    · have : ∀ h ∈ urlHeads, ∀ c ∈ h, isWhiteSpace c = false := by decide
      exact this h hh c hc
    · exact E.lower_no_ws _ (hyphenateFrom_no_space false q) c hc
  · intro q hq
    unfold slug hyphenate
    rw [hyphenateFrom_clean false q hq]
  · intro u w v hu hne hw hv
    unfold slug
    rw [List.append_assoc, hyphenate_append u _ hu, hyphenate_run w v hne hw hv,
      E.lower_hyphen]

/-- C10, at the query `New`, space, tab, line feed, `York`. -/
theorem urls_runs_witness :
    slug asciiEngine (lit "New" ++ [32, 9, 10] ++ lit "York") = lit "new-york"
    ∧ (performSearch asciiEngine (lit "New" ++ [32, 9, 10] ++ lit "York")).map (fun r => r.url)
        = urlHeads.map (fun h => h ++ lit "new-york") := by
  have h := (urls_runs asciiEngine).2.2.2 (lit "New") [32, 9, 10] (lit "York")
    (by decide) (by decide) (by decide) (by decide)
  have e : slug asciiEngine (lit "New" ++ [32, 9, 10] ++ lit "York") = lit "new-york" :=
    h.trans (by decide)
  refine ⟨e, ?_⟩
  rw [(urls_runs asciiEngine).1, e]

end VoiceSearch
